import Mathlib

/-!
Verification of the MOSIP OCR backend (ocr_engine.py, verifier.py, app.py).

Python strings are modelled as `List Char`; Python `None` as `Option`;
floating-point similarity scores are modelled exactly over `ℚ`.
External capabilities (the TrOCR recognizer, the EasyOCR detector, the
Ollama generative model, cv2 image decoding and `json.loads`) are passed
in as oracle parameters, as the code consumes them as black boxes.
-/

namespace MosipOCR

/-- Python strings, modelled as lists of characters. -/
abbrev PyStr := List Char

/-- Conversion of a Lean string literal to the `PyStr` model. -/
def mkPyStr (s : String) : PyStr := s.data

/-- The whitespace characters stripped by Python's `str.strip()` (ASCII range). -/
def pyIsSpace (c : Char) : Bool :=
  c == ' ' || c == '\t' || c == '\n' || c == '\r' || c == '\x0b' || c == '\x0c'

/-- Python `str.lower()` (ASCII range). -/
def pyLower (s : PyStr) : PyStr := s.map Char.toLower

/-- Python `str.strip()`: drop leading and trailing whitespace. -/
def pyStrip (s : PyStr) : PyStr :=
  ((s.dropWhile pyIsSpace).reverse.dropWhile pyIsSpace).reverse

/-- Python truthiness of an optional string: `None` and `""` are falsy. -/
def pyFalsy : Option PyStr → Bool
  | none => true
  | some s => s.isEmpty

/-- Python `" ".join`-style joining of a list of strings with a separator. -/
def joinWith (sep : PyStr) : List PyStr → PyStr
  | [] => []
  | [x] => x
  | x :: y :: rest => x ++ sep ++ joinWith sep (y :: rest)

/-!
Model of `difflib.SequenceMatcher(None, a, b)` as used by `verifier.py`.
With `isjunk = None` the junk set `bjunk` is empty, so the two
junk-extension passes of `find_longest_match` are identity and are omitted;
`autojunk` is active, so elements of `b` that occur in more than
`len(b) // 100 + 1` positions are dropped from `b2j` once `len(b) >= 200`
(modelled by `isPopular`).
-/

/-- An element of `b` dropped from `b2j` by SequenceMatcher's autojunk rule:
`len(b) >= 200` and the element occurs in more than `len(b) // 100 + 1`
positions of `b`. -/
def isPopular (b : List Char) (c : Char) : Bool :=
  200 ≤ b.length && b.length / 100 + 1 < b.count c

/-- The `b2j`-mediated match test of the `find_longest_match` DP: positions
`(i, j)` inside the window lower bounds whose characters agree and whose
`b`-character is not dropped by autojunk. -/
def matchOK (a b : List Char) (alo blo i j : ℕ) : Bool :=
  alo ≤ i && blo ≤ j &&
    match a.get? i, b.get? j with
    | some x, some y => x == y && !isPopular b y
    | _, _ => false

/-- Length of the matching run ending exactly at positions `(i, j)`, the
value `j2len[j]` computed row by row by `find_longest_match`'s DP loop
(chains cannot pass below `alo`/`blo` nor through autojunk-dropped
`b`-positions). -/
def chainLen (a b : List Char) (alo blo : ℕ) : ℕ → ℕ → ℕ
  | 0, j => if matchOK a b alo blo 0 j then 1 else 0
  | i + 1, j =>
    if matchOK a b alo blo (i + 1) j then
      if j = 0 then 1 else chainLen a b alo blo i (j - 1) + 1
    else 0

/-- Candidate end positions `(i, j)` of the DP loops, in iteration order:
`i` ascending over `[alo, ahi)`, then `j` ascending over `[blo, bhi)`. -/
def candidateList (alo ahi blo bhi : ℕ) : List (ℕ × ℕ) :=
  (List.range' alo (ahi - alo)).flatMap fun i =>
    (List.range' blo (bhi - blo)).map fun j => (i, j)

/-- The best match `(besti, bestj, bestsize)` found by the DP loops of
`find_longest_match`: the fold records a new start triple whenever a strictly
longer run-end is found, matching the `if k > bestsize` update. -/
def dpBest (a b : List Char) (alo ahi blo bhi : ℕ) : ℕ × ℕ × ℕ :=
  (candidateList alo ahi blo bhi).foldl
    (fun best p =>
      if best.2.2 < chainLen a b alo blo p.1 p.2 then
        (p.1 + 1 - chainLen a b alo blo p.1 p.2,
         p.2 + 1 - chainLen a b alo blo p.1 p.2,
         chainLen a b alo blo p.1 p.2)
      else best)
    (alo, blo, 0)

/-- The raw equality test used by the extension loops of
`find_longest_match` (no junk constraint: `bjunk` is empty). -/
def matchEq (a b : List Char) (i j : ℕ) : Bool :=
  match a.get? i, b.get? j with
  | some x, some y => x == y
  | _, _ => false

/-- The backward extension loop of `find_longest_match`:
`while besti > alo and bestj > blo and a[besti-1] == b[bestj-1]`. -/
def extendBack (a b : List Char) (alo blo : ℕ) : ℕ → ℕ → ℕ → ℕ × ℕ × ℕ
  | 0, j, k => (0, j, k)
  | i + 1, j, k =>
    if alo < i + 1 ∧ blo < j ∧ matchEq a b i (j - 1) = true then
      extendBack a b alo blo i (j - 1) (k + 1)
    else (i + 1, j, k)

/-- The forward extension loop of `find_longest_match`, with explicit fuel;
the guard `i + k < ahi` makes the loop stop by itself exactly when the fuel
`ahi - (i + k)` would run out, so the fuel never cuts the loop short. -/
def extendFwdAux (a b : List Char) (ahi bhi : ℕ) : ℕ → ℕ → ℕ → ℕ → ℕ × ℕ × ℕ
  | 0, i, j, k => (i, j, k)
  | fuel + 1, i, j, k =>
    if i + k < ahi ∧ j + k < bhi ∧ matchEq a b (i + k) (j + k) = true then
      extendFwdAux a b ahi bhi fuel i j (k + 1)
    else (i, j, k)

/-- The forward extension loop of `find_longest_match`:
`while besti+bestsize < ahi and bestj+bestsize < bhi and a[..] == b[..]`. -/
def extendFwd (a b : List Char) (ahi bhi i j k : ℕ) : ℕ × ℕ × ℕ :=
  extendFwdAux a b ahi bhi (ahi - (i + k)) i j k

/-- `SequenceMatcher.find_longest_match` on the window
`a[alo:ahi] × b[blo:bhi]`: the DP best match followed by the two non-junk
extension loops (the junk extension loops are identity since `bjunk = ∅`). -/
def find_longest_match (a b : List Char) (alo ahi blo bhi : ℕ) : ℕ × ℕ × ℕ :=
  let d := dpBest a b alo ahi blo bhi
  let e := extendBack a b alo blo d.1 d.2.1 d.2.2
  extendFwd a b ahi bhi e.1 e.2.1 e.2.2

/-- The recursive block collection of `SequenceMatcher.get_matching_blocks`
(the queue formulation of difflib, written recursively), with explicit fuel;
each recursive call strictly shrinks the `a`-window, so fuel
`a.length + 1` at the top level is never exhausted. The terminal zero-length
sentinel block and the adjacent-block merge of difflib are omitted: they do
not change the total number of matched characters. -/
def matchingBlocksAux (a b : List Char) : ℕ → ℕ → ℕ → ℕ → ℕ → List (ℕ × ℕ × ℕ)
  | 0, _, _, _, _ => []
  | fuel + 1, alo, ahi, blo, bhi =>
    let m := find_longest_match a b alo ahi blo bhi
    if 0 < m.2.2 then
      matchingBlocksAux a b fuel alo m.1 blo m.2.1 ++
        m :: matchingBlocksAux a b fuel (m.1 + m.2.2) ahi (m.2.1 + m.2.2) bhi
    else []

/-- `SequenceMatcher.get_matching_blocks` over the whole strings. -/
def get_matching_blocks (a b : List Char) : List (ℕ × ℕ × ℕ) :=
  matchingBlocksAux a b (a.length + 1) 0 a.length 0 b.length

/-- Total number of matched characters (`matches` in `difflib.ratio`). -/
def matchSum (a b : List Char) : ℕ :=
  ((get_matching_blocks a b).map fun t => t.2.2).sum

/-- `SequenceMatcher.ratio`: `2.0 * matches / length` via
`_calculate_ratio`, which returns `1.0` when `length == 0`. -/
def ratio (a b : List Char) : ℚ :=
  if a.length + b.length = 0 then 1
  else 2 * (matchSum a b : ℚ) / ((a.length : ℚ) + (b.length : ℚ))

/-- Python `round` to an integer: round half to even. -/
def pyRound0 (q : ℚ) : ℤ :=
  if q - (⌊q⌋ : ℚ) < 1 / 2 then ⌊q⌋
  else if 1 / 2 < q - (⌊q⌋ : ℚ) then ⌊q⌋ + 1
  else if ⌊q⌋ % 2 = 0 then ⌊q⌋ else ⌊q⌋ + 1

/-- Python `round(q, 2)`: round half to even at two decimal places. -/
def pyRound2 (q : ℚ) : ℚ := (pyRound0 (q * 100) : ℚ) / 100

/-! The verifier (`verifier.py`). -/

/-- The status tags returned by `Verifier.verify_field`. -/
inductive MatchStatus
  | MATCH
  | PARTIAL_MATCH
  | MISMATCH
deriving DecidableEq

/-- The per-field record returned by `Verifier.verify_field`. -/
structure VerificationResult where
  field : PyStr
  extracted : Option PyStr
  user_input : Option PyStr
  score : ℚ
  status : MatchStatus
deriving DecidableEq

/-- `Verifier.calculate_similarity`: short-circuit falsy inputs to `0.0`,
else lowercase, strip, and score with `SequenceMatcher.ratio`, scaled to a
percentage rounded to two decimals. -/
def calculate_similarity (extracted_text user_input : Option PyStr) : ℚ :=
  if pyFalsy extracted_text || pyFalsy user_input then 0
  else
    let clean_extracted := pyStrip (pyLower (extracted_text.getD []))
    let clean_input := pyStrip (pyLower (user_input.getD []))
    pyRound2 (ratio clean_extracted clean_input * 100)

/-- `Verifier.verify_field`: score the pair and classify
(`== 100` ⇒ MATCH, `> 80` ⇒ PARTIAL_MATCH, otherwise MISMATCH). -/
def verify_field (field_name : PyStr) (extracted_value user_value : Option PyStr) :
    VerificationResult :=
  { field := field_name
    extracted := extracted_value
    user_input := user_value
    score := calculate_similarity extracted_value user_value
    status :=
      if calculate_similarity extracted_value user_value = 100 then .MATCH
      else if 80 < calculate_similarity extracted_value user_value then .PARTIAL_MATCH
      else .MISMATCH }

/-!
The OCR engine (`ocr_engine.py`). External capabilities are oracle
parameters: `recognize` models the TrOCR processor/model pipeline on a crop
rectangle of the original image (`none` models a raised exception),
`response` models the `ollama.chat` reply (`none` models a raised
exception/timeout) and `parseJson` models `json.loads` (`none` models a
raised `JSONDecodeError`).
-/

/-- An EasyOCR detection tuple `(bbox, text, conf)`: a quadrilateral of
pixel points (top-left, top-right, bottom-right, bottom-left) plus the
detector's raw text guess and confidence. -/
structure DetBox where
  tl : ℚ × ℚ
  tr : ℚ × ℚ
  br : ℚ × ℚ
  bl : ℚ × ℚ
  text : PyStr
  conf : ℚ
deriving DecidableEq

/-- `box[0][0][1]`: the Y coordinate of the box's top-left point. -/
def topY (b : DetBox) : ℚ := b.tl.2

/-- `box[0][0][0]`: the X coordinate of the box's top-left point. -/
def leftX (b : DetBox) : ℚ := b.tl.1

/-- Python `int()` on an exact value: truncation toward zero. -/
def pyInt (q : ℚ) : ℤ := q.num.tdiv (q.den : ℤ)

/-- The crop rectangle `(x_min, y_min, x_max, y_max)` computed per box by
`group_text_into_lines`: dynamic padding of 10% of the box height
(`int(h * 0.1)` agrees with truncated division by ten throughout the
pixel-coordinate range), clamped to the image bounds. -/
def cropRect (imgW imgH : ℤ) (b : DetBox) : ℤ × ℤ × ℤ × ℤ :=
  let h : ℤ := pyInt (max b.bl.2 b.br.2) - pyInt (min b.tl.2 b.tr.2)
  let pad : ℤ := h.tdiv 10
  let x_min := max 0 (pyInt (min b.tl.1 b.bl.1) - pad)
  let x_max := min imgW (pyInt (max b.tr.1 b.br.1) + pad)
  let y_min := max 0 (pyInt (min b.tl.2 b.tr.2) - pad)
  let y_max := min imgH (pyInt (max b.bl.2 b.br.2) + pad)
  (x_min, y_min, x_max, y_max)

/-- `OCREngine.trocr_read`: run the recognizer on a crop and strip the
result; any exception is caught and treated as the empty string. -/
def trocr_read (recognize : ℤ × ℤ × ℤ × ℤ → Option PyStr)
    (crop : ℤ × ℤ × ℤ × ℤ) : PyStr :=
  match recognize crop with
  | some t => pyStrip t
  | none => []

/-- `boxes.sort(key=lambda x: x[0][0][1])`: Python's stable sort by top-Y,
modelled by insertion sort with a non-strict comparison (stable sorts of the
same list by the same key agree). -/
def sortBoxesByY (boxes : List DetBox) : List DetBox :=
  List.insertionSort (fun p q => topY p ≤ topY q) boxes

/-- Average top-Y of the boxes accumulated in the current line. -/
def avgY (line : List DetBox) : ℚ := (line.map topY).sum / (line.length : ℚ)

/-- One iteration of the grouping loop of `group_text_into_lines`, acting on
the state `(lines, current_line)`: an empty accumulator always takes the
box; otherwise the box joins the accumulator exactly when its top-Y is
within the 20-pixel threshold of the accumulator's average top-Y, and
otherwise the accumulator is closed and a new one starts with the box. -/
def groupStep (st : List (List DetBox) × List DetBox) (box : DetBox) :
    List (List DetBox) × List DetBox :=
  if st.2.isEmpty then (st.1, st.2 ++ [box])
  else if |topY box - avgY st.2| < 20 then (st.1, st.2 ++ [box])
  else (st.1 ++ [st.2], [box])

/-- The line-grouping phase of `group_text_into_lines`: sort by top-Y, fold
the grouping loop, then close any non-empty final accumulator. -/
def groupBoxesByY (boxes : List DetBox) : List (List DetBox) :=
  let st := (sortBoxesByY boxes).foldl groupStep ([], [])
  if st.2.isEmpty then st.1 else st.1 ++ [st.2]

/-- `OCREngine.group_text_into_lines`: group boxes into visual lines, sort
each line left-to-right, read each padded crop through `trocr_read`, keep
the non-empty texts, join each line's texts with single spaces, and keep
only lines with some text. -/
def group_text_into_lines (recognize : ℤ × ℤ × ℤ × ℤ → Option PyStr)
    (imgW imgH : ℤ) (boxes : List DetBox) : List PyStr :=
  (groupBoxesByY boxes).filterMap fun line =>
    let sorted := List.insertionSort (fun p q => leftX p ≤ leftX q) line
    let line_text :=
      (sorted.map fun b => trocr_read recognize (cropRect imgW imgH b)).filter
        fun t => !t.isEmpty
    if line_text.isEmpty then none else some (joinWith [' '] line_text)

/-! The fallback extractor (`OCREngine.manual_fallback`) and its two
regular expressions, modelled with Python `re.search` leftmost-match
semantics specialised to the patterns of the source. -/

/-- A character of the class `[\w.-]` of the email pattern (ASCII range). -/
def emailChar (c : Char) : Bool :=
  c.isAlphanum || c == '_' || c == '.' || c == '-'

/-- Match of `[\w.-]+@[\w.-]+` anchored at the start of `s`: the greedy
first group must be followed immediately by `@` (backtracking cannot help,
since `@` is not in the class) and a non-empty second group. -/
def tryEmailAt (s : List Char) : Option (List Char) :=
  match s.dropWhile emailChar with
  | '@' :: rest =>
    if (s.takeWhile emailChar).isEmpty || (rest.takeWhile emailChar).isEmpty then none
    else some (s.takeWhile emailChar ++ '@' :: rest.takeWhile emailChar)
  | _ => none

/-- A character of the class `[\d -]` of the phone pattern. -/
def phoneChar (c : Char) : Bool := c.isDigit || c == ' ' || c == '-'

/-- Match of `\d[\d -]{8,}` anchored at the start of `s`, greedy. -/
def tryPhoneDigits (s : List Char) : Option (List Char) :=
  match s with
  | c :: rest =>
    if c.isDigit then
      if 8 ≤ (rest.takeWhile phoneChar).length then some (c :: rest.takeWhile phoneChar)
      else none
    else none
  | [] => none

/-- Match of `\+?\d[\d -]{8,}` anchored at the start of `s`: if the first
character is `+` the rest must continue with the digit pattern (the
backtracked empty `\+?` would put `\d` on `+` itself, which fails). -/
def tryPhoneAt (s : List Char) : Option (List Char) :=
  match s with
  | '+' :: rest =>
    match tryPhoneDigits rest with
    | some m => some ('+' :: m)
    | none => none
  | _ => tryPhoneDigits s

/-- `re.search` leftmost semantics: try the anchored matcher at each
successive start position. -/
def scanFirst (f : List Char → Option (List Char)) : List Char → Option (List Char)
  | [] => none
  | c :: rest =>
    match f (c :: rest) with
    | some m => some m
    | none => scanFirst f rest

/-- `re.search(r'[\w\.-]+@[\w\.-]+', s)`. -/
def findEmail (s : List Char) : Option (List Char) := scanFirst tryEmailAt s

/-- `re.search(r'\+?\d[\d -]{8,}', s)`. -/
def findPhone (s : List Char) : Option (List Char) := scanFirst tryPhoneAt s

/-- The dictionary built by `OCREngine.manual_fallback`. -/
structure FallbackRecord where
  email : PyStr
  phone : PyStr
  name : PyStr
deriving DecidableEq

/-- The fixed sentinel stored under `Name` by `manual_fallback`. -/
def extractionFailedSentinel : PyStr := mkPyStr "Extraction Failed (Check Ollama)"

/-- `OCREngine.manual_fallback`: join the lines with spaces, regex-extract
the first email-like and phone-like substrings (empty when absent), and set
`Name` to the fixed degraded-extraction sentinel. -/
def manual_fallback (lines : List PyStr) : FallbackRecord :=
  let text_blob := joinWith [' '] lines
  { email := (findEmail text_blob).getD []
    phone := (findPhone text_blob).getD []
    name := extractionFailedSentinel }

/-- Declarative shape of a match of the email pattern `[\w.-]+@[\w.-]+`:
a non-empty run of email characters, an `@`, and another non-empty run. -/
def emailShape (m : List Char) : Prop :=
  ∃ r1 r2, m = r1 ++ '@' :: r2 ∧ r1 ≠ [] ∧ r2 ≠ [] ∧
    (∀ c ∈ r1, emailChar c = true) ∧ (∀ c ∈ r2, emailChar c = true)

/-- Declarative shape of a match of the phone pattern `\+?\d[\d -]{8,}`:
an optional leading `+`, a digit, then at least eight phone characters. -/
def phoneShape (m : List Char) : Prop :=
  (∃ d run, m = d :: run ∧ d.isDigit = true ∧ 8 ≤ run.length ∧
    ∀ c ∈ run, phoneChar c = true) ∨
  (∃ d run, m = '+' :: d :: run ∧ d.isDigit = true ∧ 8 ≤ run.length ∧
    ∀ c ∈ run, phoneChar c = true)

/-- The substring matched by `re.search(r'\{.*\}', content, re.DOTALL)`:
from the first `{` that is followed by some `}` through the last `}` of the
string (greedy `.*` with DOTALL). -/
def braceSpan (s : List Char) : Option (List Char) :=
  match s.dropWhile (fun c => c != '{') with
  | [] => none
  | c :: rest =>
    if ((rest.reverse.dropWhile (fun c => c != '}')).reverse).isEmpty then none
    else some (c :: (rest.reverse.dropWhile (fun c => c != '}')).reverse)

/-- `OCREngine.clean_with_ai`: query the generative capability (`none`
models a raised exception, caught by the outer `except`), regex-extract the
brace-delimited JSON object substring and parse it (`parseJson = none`
models a `json.loads` failure, also caught); every failure path returns
`manual_fallback` on the lines instead of propagating. -/
def clean_with_ai {J : Type} (parseJson : PyStr → Option J)
    (response : Option PyStr) (structured_text_lines : List PyStr) :
    J ⊕ FallbackRecord :=
  match response with
  | none => .inr (manual_fallback structured_text_lines)
  | some content =>
    match braceSpan content with
    | some m =>
      match parseJson m with
      | some j => .inl j
      | none => .inr (manual_fallback structured_text_lines)
    | none => .inr (manual_fallback structured_text_lines)

/-! The extraction pipeline (`OCREngine.extract_data`). -/

/-- Outcome value of a completed `extract_data` call: either a structured
error dictionary or the extracted data. -/
inductive ExtractOutput (J : Type)
  | errorObj (msg : PyStr)
  | data (d : J ⊕ FallbackRecord)

/-- `OCREngine.extract_data`, with `Except` capturing uncaught Python
exceptions: a missing file returns the structured `File not found` object;
an existing but undecodable file makes `cv2.imread` return `None`
(`imread = none`), upon which `cv2.fastNlMeansDenoisingColored` raises and
nothing in `extract_data` catches it; otherwise detection, grouping,
recognition and schema mapping run to completion. -/
def extract_data {Img J : Type}
    (fileExists : Bool) (imread : Option Img) (preprocess : Img → Img × Img)
    (detect : Img → List DetBox)
    (recognize : ℤ × ℤ × ℤ × ℤ → Option PyStr)
    (response : Option PyStr) (parseJson : PyStr → Option J)
    (imgW imgH : ℤ) : Except PyStr (ExtractOutput J) :=
  if !fileExists then .ok (.errorObj (mkPyStr "File not found"))
  else
    match imread with
    | none => .error (mkPyStr "cv2.error: (-215:Assertion failed) !_src.empty()")
    | some img =>
      let pre := preprocess img
      let boxes := detect pre.1
      if boxes.isEmpty then .ok (.errorObj (mkPyStr "No text detected"))
      else
        let structured_lines := group_text_into_lines recognize imgW imgH boxes
        .ok (.data (clean_with_ai parseJson response structured_lines))

/-! Full-form verification (`app.py`, `verify_full_form`). -/

/-- Python `dict.get(key, default)` over an insertion-ordered string map. -/
def dictGet (d : List (PyStr × PyStr)) (k : PyStr) (default : PyStr) : PyStr :=
  match d.find? (fun kv => kv.1 == k) with
  | some kv => kv.2
  | none => default

/-- `verify_full_form`: iterate the user-submitted mapping's keys in order,
look each key up in the extracted mapping with default `""`, and verify the
pair, collecting one result per user key. -/
def verify_full_form (extracted_data user_input_data : List (PyStr × PyStr)) :
    List (PyStr × VerificationResult) :=
  user_input_data.map fun kv =>
    (kv.1, verify_field kv.1 (some (dictGet extracted_data kv.1 [])) (some kv.2))

/-- The artifact-token denylist named by the specification's Recognition
Repair section. Modelled from the spec: no such denylist occurs in
`ocr_engine.py`; this definition follows the spec's words and exists to
state the claim it appears in. -/
def artifactTokens : List PyStr :=
  [mkPyStr "|", mkPyStr "]", mkPyStr "[", mkPyStr "1|", mkPyStr "|1", mkPyStr "I"]

/-- A concrete axis-aligned detection box of width 40 and height 20 with its
top-left corner at `(x, y)`, used as input for concrete-input theorems. -/
def boxAt (x y : ℚ) : DetBox :=
  ⟨(x, y), (x + 40, y), (x + 40, y + 20), (x, y + 20), mkPyStr "w", 9 / 10⟩

/-! Bounds of the `SequenceMatcher` model: matching blocks fit inside their
windows, so the total number of matched characters is at most the length of
either string, and the similarity score lands in `[0, 100]`. -/

theorem matchOK_bounds {a b : List Char} {alo blo i j : ℕ}
    (h : matchOK a b alo blo i j = true) : alo ≤ i ∧ blo ≤ j := by
  simp only [matchOK, Bool.and_eq_true, decide_eq_true_eq] at h
  exact h.1

theorem chainLen_le (a b : List Char) (alo blo : ℕ) :
    ∀ i j, chainLen a b alo blo i j = 0 ∨
      (chainLen a b alo blo i j + alo ≤ i + 1 ∧
        chainLen a b alo blo i j + blo ≤ j + 1) := by
  intro i
  induction i with
  | zero =>
    intro j
    cases hc : matchOK a b alo blo 0 j with
    | false => left; simp [chainLen, hc]
    | true =>
      have hb := matchOK_bounds hc
      have h1 : chainLen a b alo blo 0 j = 1 := by simp [chainLen, hc]
      right
      omega
  | succ n ih =>
    intro j
    cases hc : matchOK a b alo blo (n + 1) j with
    | false => left; simp [chainLen, hc]
    | true =>
      have hb := matchOK_bounds hc
      right
      by_cases hj : j = 0
      · subst hj
        have h1 : chainLen a b alo blo (n + 1) 0 = 1 := by simp [chainLen, hc]
        omega
      · have h1 : chainLen a b alo blo (n + 1) j = chainLen a b alo blo n (j - 1) + 1 := by
          simp [chainLen, hc, hj]
        have := ih (j - 1)
        omega

theorem mem_candidateList {alo ahi blo bhi : ℕ} {p : ℕ × ℕ}
    (h : p ∈ candidateList alo ahi blo bhi) :
    alo ≤ p.1 ∧ p.1 < ahi ∧ blo ≤ p.2 ∧ p.2 < bhi := by
  simp only [candidateList, List.mem_flatMap, List.mem_map, List.mem_range'] at h
  obtain ⟨i, ⟨ki, hki, hi⟩, j, ⟨kj, hkj, hj⟩, hp⟩ := h
  subst hp
  omega

theorem foldl_preserves {α β : Type} {f : α → β → α} {P : α → Prop} :
    ∀ (l : List β) (init : α), P init →
      (∀ acc x, x ∈ l → P acc → P (f acc x)) → P (l.foldl f init) := by
  intro l
  induction l with
  | nil => intro init h _; exact h
  | cons x xs ih =>
    intro init h hstep
    exact ih (f init x) (hstep init x (List.mem_cons_self x xs) h)
      fun acc y hy hacc => hstep acc y (List.mem_cons_of_mem x hy) hacc

theorem dpBest_inv (a b : List Char) (alo ahi blo bhi : ℕ) :
    dpBest a b alo ahi blo bhi = (alo, blo, 0) ∨
      (0 < (dpBest a b alo ahi blo bhi).2.2 ∧
        alo ≤ (dpBest a b alo ahi blo bhi).1 ∧
        (dpBest a b alo ahi blo bhi).1 + (dpBest a b alo ahi blo bhi).2.2 ≤ ahi ∧
        blo ≤ (dpBest a b alo ahi blo bhi).2.1 ∧
        (dpBest a b alo ahi blo bhi).2.1 + (dpBest a b alo ahi blo bhi).2.2 ≤ bhi) := by
  unfold dpBest
  apply foldl_preserves (P := fun t => t = (alo, blo, 0) ∨
    (0 < t.2.2 ∧ alo ≤ t.1 ∧ t.1 + t.2.2 ≤ ahi ∧ blo ≤ t.2.1 ∧ t.2.1 + t.2.2 ≤ bhi))
  · exact Or.inl rfl
  · intro acc p hp hacc
    have hmem := mem_candidateList hp
    have hcl := chainLen_le a b alo blo p.1 p.2
    by_cases hlt : acc.2.2 < chainLen a b alo blo p.1 p.2
    · rw [if_pos hlt]
      right
      dsimp only
      omega
    · rw [if_neg hlt]
      exact hacc

theorem extendBack_spec (a b : List Char) (alo blo : ℕ) :
    ∀ i j k,
      (extendBack a b alo blo i j k).1 + (extendBack a b alo blo i j k).2.2 = i + k ∧
      (extendBack a b alo blo i j k).2.1 + (extendBack a b alo blo i j k).2.2 = j + k ∧
      (alo ≤ i → alo ≤ (extendBack a b alo blo i j k).1) ∧
      (blo ≤ j → blo ≤ (extendBack a b alo blo i j k).2.1) := by
  intro i
  induction i with
  | zero => intro j k; simp [extendBack]
  | succ n ih =>
    intro j k
    simp only [extendBack]
    split
    · next h =>
      have := ih (j - 1) (k + 1)
      omega
    · simp

theorem extendFwdAux_spec (a b : List Char) (ahi bhi : ℕ) :
    ∀ fuel i j k,
      (extendFwdAux a b ahi bhi fuel i j k).1 = i ∧
      (extendFwdAux a b ahi bhi fuel i j k).2.1 = j ∧
      k ≤ (extendFwdAux a b ahi bhi fuel i j k).2.2 ∧
      ((extendFwdAux a b ahi bhi fuel i j k).2.2 = k ∨
        (i + (extendFwdAux a b ahi bhi fuel i j k).2.2 ≤ ahi ∧
         j + (extendFwdAux a b ahi bhi fuel i j k).2.2 ≤ bhi)) := by
  intro fuel
  induction fuel with
  | zero => intro i j k; simp [extendFwdAux]
  | succ n ih =>
    intro i j k
    simp only [extendFwdAux]
    split
    · next h =>
      have := ih i j (k + 1)
      omega
    · simp

theorem find_longest_match_bounds (a b : List Char) (alo ahi blo bhi : ℕ)
    (h : 0 < (find_longest_match a b alo ahi blo bhi).2.2) :
    alo ≤ (find_longest_match a b alo ahi blo bhi).1 ∧
    (find_longest_match a b alo ahi blo bhi).1 +
      (find_longest_match a b alo ahi blo bhi).2.2 ≤ ahi ∧
    blo ≤ (find_longest_match a b alo ahi blo bhi).2.1 ∧
    (find_longest_match a b alo ahi blo bhi).2.1 +
      (find_longest_match a b alo ahi blo bhi).2.2 ≤ bhi := by
  have hd := dpBest_inv a b alo ahi blo bhi
  simp only [find_longest_match, extendFwd] at h ⊢
  set d := dpBest a b alo ahi blo bhi with hdd
  obtain ⟨he1, he2, he3, he4⟩ := extendBack_spec a b alo blo d.1 d.2.1 d.2.2
  set e := extendBack a b alo blo d.1 d.2.1 d.2.2 with hee
  obtain ⟨hr1, hr2, hr3, hr4⟩ :=
    extendFwdAux_spec a b ahi bhi (ahi - (e.1 + e.2.2)) e.1 e.2.1 e.2.2
  set r := extendFwdAux a b ahi bhi (ahi - (e.1 + e.2.2)) e.1 e.2.1 e.2.2 with hrr
  rcases hd with hd | hd
  · have hd1 : d.1 = alo := by rw [hd]
    have hd2 : d.2.1 = blo := by rw [hd]
    have hd3 : d.2.2 = 0 := by rw [hd]
    have he3' := he3 (by omega)
    have he4' := he4 (by omega)
    omega
  · obtain ⟨hk, h1, h2, h3, h4⟩ := hd
    have he3' := he3 h1
    have he4' := he4 h3
    omega

theorem matchingBlocksAux_sum_le (a b : List Char) :
    ∀ fuel alo ahi blo bhi,
      (((matchingBlocksAux a b fuel alo ahi blo bhi).map fun t => t.2.2).sum ≤ ahi - alo) ∧
      (((matchingBlocksAux a b fuel alo ahi blo bhi).map fun t => t.2.2).sum ≤ bhi - blo) := by
  intro fuel
  induction fuel with
  | zero => intro alo ahi blo bhi; simp [matchingBlocksAux]
  | succ n ih =>
    intro alo ahi blo bhi
    simp only [matchingBlocksAux]
    split
    · next hk =>
      have hb := find_longest_match_bounds a b alo ahi blo bhi hk
      set m := find_longest_match a b alo ahi blo bhi with hm
      have ihl := ih alo m.1 blo m.2.1
      have ihr := ih (m.1 + m.2.2) ahi (m.2.1 + m.2.2) bhi
      simp only [List.map_append, List.sum_append, List.map_cons, List.sum_cons]
      omega
    · simp

theorem matchSum_le (a b : List Char) :
    matchSum a b ≤ a.length ∧ matchSum a b ≤ b.length := by
  have := matchingBlocksAux_sum_le a b (a.length + 1) 0 a.length 0 b.length
  simpa [matchSum, get_matching_blocks] using this

theorem ratio_bounds (a b : List Char) : 0 ≤ ratio a b ∧ ratio a b ≤ 1 := by
  unfold ratio
  split
  · norm_num
  · next hne =>
    have hm := matchSum_le a b
    have hpos : (0 : ℚ) < (a.length : ℚ) + (b.length : ℚ) := by
      have : 0 < a.length + b.length := Nat.pos_of_ne_zero hne
      exact_mod_cast this
    constructor
    · positivity
    · rw [div_le_one hpos]
      have h2 : 2 * matchSum a b ≤ a.length + b.length := by omega
      exact_mod_cast h2

theorem pyRound0_bounds {q : ℚ} {B : ℤ} (h0 : 0 ≤ q) (h1 : q ≤ (B : ℚ)) :
    0 ≤ pyRound0 q ∧ pyRound0 q ≤ B := by
  unfold pyRound0
  have hf0 : 0 ≤ ⌊q⌋ := Int.floor_nonneg.mpr h0
  have hfB : ⌊q⌋ ≤ B := by
    have h2 := Int.floor_le_floor h1
    rwa [Int.floor_intCast] at h2
  have hfle : (⌊q⌋ : ℚ) ≤ q := Int.floor_le q
  by_cases hlt : q - (⌊q⌋ : ℚ) < 1 / 2
  · rw [if_pos hlt]
    exact ⟨hf0, hfB⟩
  · rw [if_neg hlt]
    push_neg at hlt
    have hflt : (⌊q⌋ : ℚ) < (B : ℚ) := by linarith
    have hfB' : ⌊q⌋ < B := by exact_mod_cast hflt
    by_cases hgt : 1 / 2 < q - (⌊q⌋ : ℚ)
    · rw [if_pos hgt]
      omega
    · rw [if_neg hgt]
      split <;> omega

theorem calculate_similarity_bounds (e u : Option PyStr) :
    0 ≤ calculate_similarity e u ∧ calculate_similarity e u ≤ 100 := by
  unfold calculate_similarity
  split
  · norm_num
  · set r := ratio (pyStrip (pyLower (e.getD []))) (pyStrip (pyLower (u.getD []))) with hr
    have hb := ratio_bounds (pyStrip (pyLower (e.getD []))) (pyStrip (pyLower (u.getD [])))
    rw [← hr] at hb
    have h0 : (0 : ℚ) ≤ r * 100 * 100 := by nlinarith [hb.1]
    have h1 : r * 100 * 100 ≤ ((10000 : ℤ) : ℚ) := by push_cast; nlinarith [hb.2]
    have := pyRound0_bounds h0 h1
    unfold pyRound2
    constructor
    · have : (0 : ℚ) ≤ (pyRound0 (r * 100 * 100) : ℚ) := by exact_mod_cast this.1
      linarith
    · have h2 : (pyRound0 (r * 100 * 100) : ℚ) ≤ 10000 := by exact_mod_cast this.2
      linarith

/-- C3: for every pair of field values, `verify_field` classifies MATCH
exactly when the score equals 100, PARTIAL_MATCH exactly when the score is
strictly between 80 and 100, and MISMATCH exactly when the score is at most
80 (the computed score always lies in `[0, 100]`). -/
theorem C3_status_classification (f : PyStr) (e u : Option PyStr) :
    ((verify_field f e u).status = .MATCH ↔ (verify_field f e u).score = 100) ∧
    ((verify_field f e u).status = .PARTIAL_MATCH ↔
      80 < (verify_field f e u).score ∧ (verify_field f e u).score < 100) ∧
    ((verify_field f e u).status = .MISMATCH ↔ (verify_field f e u).score ≤ 80) := by
  have hb := calculate_similarity_bounds e u
  unfold verify_field
  dsimp only
  by_cases h100 : calculate_similarity e u = 100
  · rw [if_pos h100]
    exact ⟨iff_of_true rfl h100,
      iff_of_false (by simp) (by rw [h100]; norm_num),
      iff_of_false (by simp) (by rw [h100]; norm_num)⟩
  · rw [if_neg h100]
    by_cases h80 : 80 < calculate_similarity e u
    · rw [if_pos h80]
      have hlt : calculate_similarity e u < 100 := lt_of_le_of_ne hb.2 h100
      exact ⟨iff_of_false (by simp) h100,
        iff_of_true rfl ⟨h80, hlt⟩,
        iff_of_false (by simp) (by linarith)⟩
    · rw [if_neg h80]
      push_neg at h80
      exact ⟨iff_of_false (by simp) h100,
        iff_of_false (by simp) fun hh => absurd hh.1 (by linarith),
        iff_of_true rfl h80⟩

/-! Normalization lemmas: `lower`/`strip` ignore added outer whitespace. -/

theorem pyFalsy_some_of_ne_nil {s : PyStr} (h : s ≠ []) : pyFalsy (some s) = false := by
  cases s with
  | nil => exact absurd rfl h
  | cons c cs => rfl

theorem pyIsSpace_toLower {c : Char} (h : pyIsSpace c = true) : Char.toLower c = c := by
  simp only [pyIsSpace, Bool.or_eq_true, beq_iff_eq] at h
  rcases h with ((((h | h) | h) | h) | h) | h <;> subst h <;> decide

theorem pyLower_all_space {s : PyStr} (h : ∀ c ∈ s, pyIsSpace c = true) :
    ∀ c ∈ pyLower s, pyIsSpace c = true := by
  intro c hc
  rcases List.mem_map.mp hc with ⟨d, hd, hdc⟩
  rw [← hdc, pyIsSpace_toLower (h d hd)]
  exact h d hd

theorem pyStrip_eq_nil_of_all_space {s : PyStr} (h : ∀ c ∈ s, pyIsSpace c = true) :
    pyStrip s = [] := by
  unfold pyStrip
  have h1 : s.dropWhile pyIsSpace = [] := List.dropWhile_eq_nil_iff.mpr h
  rw [h1]
  rfl

theorem pyStrip_space_append {w x : PyStr} (h : ∀ c ∈ w, pyIsSpace c = true) :
    pyStrip (w ++ x) = pyStrip x := by
  unfold pyStrip
  rw [List.dropWhile_append]
  have h1 : (w.dropWhile pyIsSpace).isEmpty = true := by
    rw [List.dropWhile_eq_nil_iff.mpr h]
    rfl
  rw [if_pos h1]

theorem pyStrip_append_space {x w : PyStr} (h : ∀ c ∈ w, pyIsSpace c = true) :
    pyStrip (x ++ w) = pyStrip x := by
  have hw : w.dropWhile pyIsSpace = [] := List.dropWhile_eq_nil_iff.mpr h
  have hwr : w.reverse.dropWhile pyIsSpace = [] :=
    List.dropWhile_eq_nil_iff.mpr fun c hc => h c (List.mem_reverse.mp hc)
  unfold pyStrip
  rw [List.dropWhile_append]
  by_cases hx : (x.dropWhile pyIsSpace).isEmpty
  · rw [if_pos hx, hw]
    have hx' : x.dropWhile pyIsSpace = [] := by
      cases hempty : x.dropWhile pyIsSpace with
      | nil => rfl
      | cons c cs => rw [hempty] at hx; simp at hx
    rw [hx']
  · rw [if_neg hx, List.reverse_append, List.dropWhile_append]
    rw [if_pos (by rw [hwr]; rfl)]

theorem pyLower_length (s : PyStr) : (pyLower s).length = s.length :=
  List.length_map s Char.toLower

/-- The cleaned form `str(x).lower().strip()` computed by
`calculate_similarity` is unchanged by recasing and outer whitespace. -/
theorem clean_pad_recase {x x' p s : PyStr}
    (hl : pyLower x' = pyLower x)
    (hp : ∀ c ∈ p, pyIsSpace c = true) (hs : ∀ c ∈ s, pyIsSpace c = true) :
    pyStrip (pyLower (p ++ x' ++ s)) = pyStrip (pyLower x) := by
  have hmap : pyLower (p ++ x' ++ s) = pyLower p ++ pyLower x' ++ pyLower s := by
    unfold pyLower
    rw [List.map_append, List.map_append]
  rw [hmap, List.append_assoc, pyStrip_space_append (pyLower_all_space hp),
    pyStrip_append_space (pyLower_all_space hs), hl]

/-- C4: a falsy (`None` or empty) original value on either side
short-circuits `verify_field` to score `0.0` and status MISMATCH. -/
theorem C4_empty_short_circuit (f : PyStr) (e u : Option PyStr)
    (h : pyFalsy e = true ∨ pyFalsy u = true) :
    (verify_field f e u).score = 0 ∧ (verify_field f e u).status = .MISMATCH := by
  have hs : calculate_similarity e u = 0 := by
    unfold calculate_similarity
    rcases h with h | h <;> simp [h]
  unfold verify_field
  dsimp only
  rw [hs]
  norm_num

/-- Witness for C4 at the concrete pair `("", "John")`. -/
theorem C4_witness :
    (pyFalsy (some []) = true ∨ pyFalsy (some (mkPyStr "John")) = true) ∧
    (verify_field (mkPyStr "Name") (some []) (some (mkPyStr "John"))).score = 0 ∧
    (verify_field (mkPyStr "Name") (some []) (some (mkPyStr "John"))).status = .MISMATCH :=
  ⟨Or.inl rfl, C4_empty_short_circuit (mkPyStr "Name") (some []) (some (mkPyStr "John"))
    (Or.inl rfl)⟩

/-- C10: non-empty all-whitespace inputs escape the falsy short-circuit
(which tests the original values), both normalize to the empty string, and
`SequenceMatcher.ratio` on two empty strings is `1.0`, so `verify_field`
returns score 100 and status MATCH despite contentless inputs. -/
theorem C10_whitespace_only_match (f : PyStr) (e u : PyStr)
    (he : e ≠ []) (hu : u ≠ [])
    (hse : ∀ c ∈ e, pyIsSpace c = true) (hsu : ∀ c ∈ u, pyIsSpace c = true) :
    (verify_field f (some e) (some u)).score = 100 ∧
    (verify_field f (some e) (some u)).status = .MATCH := by
  have hce : pyStrip (pyLower e) = [] := pyStrip_eq_nil_of_all_space (pyLower_all_space hse)
  have hcu : pyStrip (pyLower u) = [] := pyStrip_eq_nil_of_all_space (pyLower_all_space hsu)
  have hs : calculate_similarity (some e) (some u) = 100 := by
    unfold calculate_similarity
    rw [pyFalsy_some_of_ne_nil he, pyFalsy_some_of_ne_nil hu]
    simp only [Bool.or_self, Bool.false_or, if_false, Option.getD_some]
    rw [hce, hcu]
    rw [show ratio [] [] = 1 from rfl]
    norm_num [pyRound2, pyRound0]
  unfold verify_field
  dsimp only
  rw [hs]
  norm_num

/-- Witness for C10 at the concrete pair `(" ", "  ")`. -/
theorem C10_witness :
    (verify_field [] (some (mkPyStr " ")) (some (mkPyStr "  "))).score = 100 ∧
    (verify_field [] (some (mkPyStr " ")) (some (mkPyStr "  "))).status = .MATCH :=
  C10_whitespace_only_match [] (mkPyStr " ") (mkPyStr "  ")
    (by decide) (by decide) (by decide) (by decide)

set_option maxRecDepth 10000 in
unseal Rat.mul Rat.add Rat.sub Rat.inv in
/-- C9: for non-empty values, score and status are invariant under recasing
and under adding leading/trailing whitespace to either value; in particular
`verify("John Smith", "JOHN SMITH ")` scores 100 and is MATCH. -/
theorem C9_normalization_invariance (f f' : PyStr) (e u e' u' p1 s1 p2 s2 : PyStr)
    (he : e ≠ []) (hu : u ≠ [])
    (hle : pyLower e' = pyLower e) (hlu : pyLower u' = pyLower u)
    (hp1 : ∀ c ∈ p1, pyIsSpace c = true) (hs1 : ∀ c ∈ s1, pyIsSpace c = true)
    (hp2 : ∀ c ∈ p2, pyIsSpace c = true) (hs2 : ∀ c ∈ s2, pyIsSpace c = true) :
    ((verify_field f' (some (p1 ++ e' ++ s1)) (some (p2 ++ u' ++ s2))).score =
        (verify_field f (some e) (some u)).score ∧
      (verify_field f' (some (p1 ++ e' ++ s1)) (some (p2 ++ u' ++ s2))).status =
        (verify_field f (some e) (some u)).status) ∧
    (verify_field (mkPyStr "Name") (some (mkPyStr "John Smith"))
        (some (mkPyStr "JOHN SMITH "))).score = 100 ∧
    (verify_field (mkPyStr "Name") (some (mkPyStr "John Smith"))
        (some (mkPyStr "JOHN SMITH "))).status = .MATCH := by
  have he' : e' ≠ [] := by
    intro hnil
    apply he
    have := pyLower_length e'
    rw [hle, hnil] at this
    have h0 := pyLower_length e
    cases e with
    | nil => rfl
    | cons c cs => simp [pyLower] at this
  have hpad : p1 ++ e' ++ s1 ≠ [] := by
    intro hnil
    rcases List.append_eq_nil.mp hnil with ⟨h1, _⟩
    exact he' (List.append_eq_nil.mp h1).2
  have hu' : u' ≠ [] := by
    intro hnil
    apply hu
    have := pyLower_length u'
    rw [hlu, hnil] at this
    cases u with
    | nil => rfl
    | cons c cs => simp [pyLower] at this
  have hpad2 : p2 ++ u' ++ s2 ≠ [] := by
    intro hnil
    rcases List.append_eq_nil.mp hnil with ⟨h1, _⟩
    exact hu' (List.append_eq_nil.mp h1).2
  have hsim : calculate_similarity (some (p1 ++ e' ++ s1)) (some (p2 ++ u' ++ s2)) =
      calculate_similarity (some e) (some u) := by
    unfold calculate_similarity
    rw [pyFalsy_some_of_ne_nil hpad, pyFalsy_some_of_ne_nil hpad2,
      pyFalsy_some_of_ne_nil he, pyFalsy_some_of_ne_nil hu]
    simp only [Option.getD_some]
    rw [clean_pad_recase hle hp1 hs1, clean_pad_recase hlu hp2 hs2]
  refine ⟨⟨?_, ?_⟩, by decide, by decide⟩
  · unfold verify_field
    dsimp only
    rw [hsim]
  · unfold verify_field
    dsimp only
    rw [hsim]

set_option maxRecDepth 10000 in
unseal Rat.mul Rat.add Rat.sub Rat.inv in
/-- Witness for C9 at concrete recased, padded inputs. -/
theorem C9_witness :
    (verify_field (mkPyStr "f") (some (mkPyStr " JoN "))
        (some (mkPyStr "  JOHN"))).score =
      (verify_field (mkPyStr "g") (some (mkPyStr "jOn"))
        (some (mkPyStr "john"))).score ∧
    (verify_field (mkPyStr "f") (some (mkPyStr " JoN "))
        (some (mkPyStr "  JOHN"))).status =
      (verify_field (mkPyStr "g") (some (mkPyStr "jOn"))
        (some (mkPyStr "john"))).status :=
  (C9_normalization_invariance (mkPyStr "g") (mkPyStr "f")
    (mkPyStr "jOn") (mkPyStr "john") (mkPyStr "JoN") (mkPyStr "JOHN")
    (mkPyStr " ") (mkPyStr " ") (mkPyStr "  ") []
    (by decide) (by decide) (by decide) (by decide)
    (by decide) (by decide) (by decide) (by decide)).1

/-! Line grouping: conservation and order lemmas. -/

theorem groupStep_foldl_flatten :
    ∀ (l : List DetBox) (ls : List (List DetBox)) (cur : List DetBox),
      (l.foldl groupStep (ls, cur)).1.flatten ++ (l.foldl groupStep (ls, cur)).2 =
        ls.flatten ++ cur ++ l := by
  intro l
  induction l with
  | nil => intro ls cur; simp
  | cons b rest ih =>
    intro ls cur
    rw [List.foldl_cons]
    by_cases hemp : cur.isEmpty
    · have hcur : cur = [] := by
        cases cur with
        | nil => rfl
        | cons x xs => simp at hemp
      rw [show groupStep (ls, cur) b = (ls, cur ++ [b]) from by simp [groupStep, hemp]]
      rw [ih]
      simp [hcur]
    · by_cases hth : |topY b - avgY cur| < 20
      · rw [show groupStep (ls, cur) b = (ls, cur ++ [b]) from by
          simp [groupStep, hemp, hth]]
        rw [ih]
        simp
      · rw [show groupStep (ls, cur) b = (ls ++ [cur], [b]) from by
          simp [groupStep, hemp, hth]]
        rw [ih]
        simp

theorem groupBoxesByY_flatten (boxes : List DetBox) :
    (groupBoxesByY boxes).flatten = sortBoxesByY boxes := by
  unfold groupBoxesByY
  have h := groupStep_foldl_flatten (sortBoxesByY boxes) [] []
  set st := (sortBoxesByY boxes).foldl groupStep ([], []) with hst
  simp only [List.flatten_nil, List.nil_append] at h
  by_cases hemp : st.2.isEmpty
  · have h2 : st.2 = [] := by
      cases hv : st.2 with
      | nil => rfl
      | cons x xs => rw [hv] at hemp; simp at hemp
    rw [if_pos hemp]
    rw [h2, List.append_nil] at h
    exact h
  · rw [if_neg hemp]
    rw [List.flatten_append]
    simpa using h

theorem sortBoxesByY_sorted (boxes : List DetBox) :
    List.Sorted (fun p q => topY p ≤ topY q) (sortBoxesByY boxes) := by
  haveI : IsTotal DetBox (fun p q => topY p ≤ topY q) :=
    ⟨fun a b => le_total (topY a) (topY b)⟩
  haveI : IsTrans DetBox (fun p q => topY p ≤ topY q) :=
    ⟨fun a b c hab hbc => le_trans hab hbc⟩
  exact List.sorted_insertionSort _ boxes

set_option maxRecDepth 40000 in
unseal Rat.mul Rat.add Rat.sub Rat.inv in
/-- C2: the grouping loop processes boxes in ascending top-Y order (the
output lines flatten back to the top-Y-sorted input, which is sorted); with
a non-empty accumulator, a box is appended exactly when its top-Y is within
the 20-pixel threshold of the accumulator's running average top-Y, and
otherwise closes the accumulator and starts a new one; boxes with top-Y
`[100, 105, 140]` yield the groups `[[100, 105], [140]]`. -/
theorem C2_line_grouping :
    (∀ boxes : List DetBox, (groupBoxesByY boxes).flatten = sortBoxesByY boxes) ∧
    (∀ boxes : List DetBox,
      List.Sorted (fun p q => topY p ≤ topY q) (sortBoxesByY boxes)) ∧
    (∀ (st : List (List DetBox) × List DetBox) (box : DetBox), st.2 ≠ [] →
      groupStep st box =
        if |topY box - avgY st.2| < 20 then (st.1, st.2 ++ [box])
        else (st.1 ++ [st.2], [box])) ∧
    (groupBoxesByY [boxAt 10 100, boxAt 60 105, boxAt 10 140]).map (List.map topY) =
      [[100, 105], [140]] := by
  refine ⟨groupBoxesByY_flatten, sortBoxesByY_sorted, ?_, by decide⟩
  intro st box hne
  have hemp : st.2.isEmpty = false := by
    cases hv : st.2 with
    | nil => exact absurd hv hne
    | cons x xs => rfl
  unfold groupStep
  rw [hemp]
  simp only [Bool.false_eq_true, if_false]

set_option maxRecDepth 40000 in
unseal Rat.mul Rat.add Rat.sub Rat.inv in
/-- Witness for C2's threshold conjunct at a concrete state and box. -/
theorem C2_witness :
    groupStep ([], [boxAt 10 100]) (boxAt 10 140) =
      if |topY (boxAt 10 140) - avgY (([], [boxAt 10 100]) :
            List (List DetBox) × List DetBox).2| < 20
      then ((([], [boxAt 10 100]) : List (List DetBox) × List DetBox).1,
        [boxAt 10 100] ++ [boxAt 10 140])
      else ([[boxAt 10 100]], [boxAt 10 140]) :=
  C2_line_grouping.2.2.1 ([], [boxAt 10 100]) (boxAt 10 140) (by decide)

set_option maxRecDepth 40000 in
unseal Rat.mul Rat.add Rat.sub Rat.inv in
/-- C1 counterexample: a crop whose recognized text trims to the artifact
token `"|"` is not suppressed; it appears verbatim as the assembled line
text (`ocr_engine.py` has no denylist filter, it only drops empty text). -/
theorem C1_counterexample :
    pyStrip (mkPyStr "|") ∈ artifactTokens ∧
    group_text_into_lines (fun _ => some (mkPyStr "|")) 100 100 [boxAt 10 100] =
      [mkPyStr "|"] := by
  constructor
  · decide
  · decide

set_option maxRecDepth 40000 in
unseal Rat.mul Rat.add Rat.sub Rat.inv in
/-- C1 amended: no denylist suppression is performed; every artifact token
of the spec's list survives recognition verbatim as a line text, and only a
recognition result that is empty after trimming is dropped. -/
theorem C1_amended (t : PyStr) (h : t ∈ artifactTokens) :
    group_text_into_lines (fun _ => some t) 100 100 [boxAt 10 100] = [t] ∧
    group_text_into_lines (fun _ => some []) 100 100 [boxAt 10 100] = [] := by
  refine ⟨?_, by decide⟩
  fin_cases h <;> decide

set_option maxRecDepth 40000 in
unseal Rat.mul Rat.add Rat.sub Rat.inv in
/-- Witness for C1's amended theorem at the token `"|"`. -/
theorem C1_amended_witness :
    group_text_into_lines (fun _ => some (mkPyStr "|")) 100 100 [boxAt 10 100] =
      [mkPyStr "|"] ∧
    group_text_into_lines (fun _ => some []) 100 100 [boxAt 10 100] = [] :=
  C1_amended (mkPyStr "|") (by decide)

set_option maxRecDepth 40000 in
unseal Rat.mul Rat.add Rat.sub Rat.inv in
/-- C7: full-form verification produces exactly one result per user key, in
order, comparing against the extracted value under the same key with
default `""`; on the documented example both keys get results and `"Age"`
is compared against `""` and classified MISMATCH. -/
theorem C7_full_form_verification :
    (∀ e u : List (PyStr × PyStr),
      (verify_full_form e u).map Prod.fst = u.map Prod.fst) ∧
    (∀ (e u : List (PyStr × PyStr)) (k v : PyStr), (k, v) ∈ u →
      (k, verify_field k (some (dictGet e k [])) (some v)) ∈ verify_full_form e u) ∧
    ((verify_full_form [(mkPyStr "Name", mkPyStr "Jon")]
        [(mkPyStr "Name", mkPyStr "John"), (mkPyStr "Age", mkPyStr "30")]).map
          Prod.fst = [mkPyStr "Name", mkPyStr "Age"]) ∧
    dictGet [(mkPyStr "Name", mkPyStr "Jon")] (mkPyStr "Age") [] = [] ∧
    ((verify_full_form [(mkPyStr "Name", mkPyStr "Jon")]
        [(mkPyStr "Name", mkPyStr "John"), (mkPyStr "Age", mkPyStr "30")]).get? 1 =
      some (mkPyStr "Age",
        verify_field (mkPyStr "Age") (some []) (some (mkPyStr "30")))) ∧
    (verify_field (mkPyStr "Age") (some []) (some (mkPyStr "30"))).score = 0 ∧
    (verify_field (mkPyStr "Age") (some []) (some (mkPyStr "30"))).status =
      .MISMATCH := by
  refine ⟨?_, ?_, by decide, by decide, by decide, by decide, by decide⟩
  · intro e u
    induction u with
    | nil => rfl
    | cons kv rest ih =>
      simp only [verify_full_form, List.map_cons] at ih ⊢
      rw [ih]
  · intro e u k v hmem
    exact List.mem_map.mpr ⟨(k, v), hmem, rfl⟩

set_option maxRecDepth 40000 in
unseal Rat.mul Rat.add Rat.sub Rat.inv in
/-- Witness for C7's per-key conjunct at the documented example. -/
theorem C7_witness :
    (mkPyStr "Age", verify_field (mkPyStr "Age")
        (some (dictGet [(mkPyStr "Name", mkPyStr "Jon")] (mkPyStr "Age") []))
        (some (mkPyStr "30"))) ∈
      verify_full_form [(mkPyStr "Name", mkPyStr "Jon")]
        [(mkPyStr "Name", mkPyStr "John"), (mkPyStr "Age", mkPyStr "30")] :=
  C7_full_form_verification.2.1 [(mkPyStr "Name", mkPyStr "Jon")]
    [(mkPyStr "Name", mkPyStr "John"), (mkPyStr "Age", mkPyStr "30")]
    (mkPyStr "Age") (mkPyStr "30") (by decide)

/-! Fallback-extractor regex lemmas. -/

theorem takeWhile_append_all {p : Char → Bool} {l₁ l₂ : List Char}
    (h : ∀ c ∈ l₁, p c = true) :
    (l₁ ++ l₂).takeWhile p = l₁ ++ l₂.takeWhile p := by
  induction l₁ with
  | nil => rfl
  | cons c cs ih =>
    rw [List.cons_append, List.takeWhile_cons, if_pos (h c (by simp)),
      ih fun d hd => h d (by simp [hd]), List.cons_append]

theorem dropWhile_append_all {p : Char → Bool} {l₁ l₂ : List Char}
    (h : ∀ c ∈ l₁, p c = true) :
    (l₁ ++ l₂).dropWhile p = l₂.dropWhile p := by
  rw [List.dropWhile_append, if_pos (by rw [List.dropWhile_eq_nil_iff.mpr h]; rfl)]

theorem scanFirst_eq_some {f : List Char → Option (List Char)} :
    ∀ {s m : List Char}, scanFirst f s = some m →
      ∃ n, f (s.drop n) = some m ∧ ∀ k < n, f (s.drop k) = none := by
  intro s
  induction s with
  | nil => intro m h; simp [scanFirst] at h
  | cons c cs ih =>
    intro m h
    unfold scanFirst at h
    cases hf : f (c :: cs) with
    | some m' =>
      rw [hf] at h
      injection h with h1
      subst h1
      exact ⟨0, hf, by omega⟩
    | none =>
      rw [hf] at h
      obtain ⟨n, h1, h2⟩ := ih h
      refine ⟨n + 1, by simpa [List.drop_succ_cons] using h1, ?_⟩
      intro k hk
      cases k with
      | zero => simpa using hf
      | succ k' =>
        have := h2 k' (by omega)
        simpa [List.drop_succ_cons] using this

theorem scanFirst_eq_none {f : List Char → Option (List Char)} (hf0 : f [] = none) :
    ∀ {s : List Char}, scanFirst f s = none → ∀ n, f (s.drop n) = none := by
  intro s
  induction s with
  | nil => intro _ n; simpa [List.drop_nil] using hf0
  | cons c cs ih =>
    intro h n
    unfold scanFirst at h
    cases hf : f (c :: cs) with
    | some m => rw [hf] at h; cases h
    | none =>
      rw [hf] at h
      cases n with
      | zero => exact hf
      | succ n' => simpa [List.drop_succ_cons] using ih h n'

theorem tryEmailAt_some {s m : List Char} (h : tryEmailAt s = some m) :
    emailShape m ∧ ∃ w, s = m ++ w := by
  unfold tryEmailAt at h
  split at h
  · next rest heq =>
    by_cases hemp :
        ((s.takeWhile emailChar).isEmpty || (rest.takeWhile emailChar).isEmpty) = true
    · rw [if_pos hemp] at h; cases h
    · rw [if_neg hemp] at h
      injection h with h1
      rw [Bool.or_eq_true, not_or] at hemp
      have hne1 : s.takeWhile emailChar ≠ [] := fun hh => hemp.1 (by rw [hh]; rfl)
      have hne2 : rest.takeWhile emailChar ≠ [] := fun hh => hemp.2 (by rw [hh]; rfl)
      constructor
      · exact ⟨s.takeWhile emailChar, rest.takeWhile emailChar, h1.symm, hne1, hne2,
          fun c hc => List.mem_takeWhile_imp hc, fun c hc => List.mem_takeWhile_imp hc⟩
      · refine ⟨rest.dropWhile emailChar, ?_⟩
        rw [← h1]
        conv_lhs => rw [← List.takeWhile_append_dropWhile emailChar s, heq]
        rw [List.append_assoc, List.cons_append, List.takeWhile_append_dropWhile]
  · cases h

theorem tryEmailAt_complete {m v : List Char} (hm : emailShape m) :
    tryEmailAt (m ++ v) ≠ none := by
  obtain ⟨r1, r2, rfl, h1, h2, hr1, hr2⟩ := hm
  have hassoc : (r1 ++ '@' :: r2) ++ v = r1 ++ '@' :: (r2 ++ v) := by simp
  have hdw : ((r1 ++ '@' :: r2) ++ v).dropWhile emailChar = '@' :: (r2 ++ v) := by
    rw [hassoc, dropWhile_append_all hr1, List.dropWhile_cons, if_neg (by decide)]
  have htw : ((r1 ++ '@' :: r2) ++ v).takeWhile emailChar = r1 := by
    rw [hassoc, takeWhile_append_all hr1, List.takeWhile_cons, if_neg (by decide),
      List.append_nil]
  unfold tryEmailAt
  split
  · next rest heq =>
    rw [hdw] at heq
    injection heq with _ h4
    subst h4
    rw [htw, takeWhile_append_all hr2]
    have e1 : r1.isEmpty = false := by
      cases r1 with
      | nil => exact absurd rfl h1
      | cons _ _ => rfl
    have e2 : (r2 ++ v.takeWhile emailChar).isEmpty = false := by
      cases r2 with
      | nil => exact absurd rfl h2
      | cons _ _ => rfl
    rw [e1, e2]
    simp
  · next hne =>
    exact (hne (r2 ++ v) hdw).elim

theorem tryPhoneDigits_some {s m : List Char} (h : tryPhoneDigits s = some m) :
    (∃ d run, m = d :: run ∧ d.isDigit = true ∧ 8 ≤ run.length ∧
      (∀ c ∈ run, phoneChar c = true)) ∧ ∃ w, s = m ++ w := by
  unfold tryPhoneDigits at h
  split at h
  · next c rest =>
    by_cases hd : c.isDigit = true
    · rw [if_pos hd] at h
      by_cases hlen : 8 ≤ (rest.takeWhile phoneChar).length
      · rw [if_pos hlen] at h
        injection h with h1
        constructor
        · exact ⟨c, rest.takeWhile phoneChar, h1.symm, hd, hlen,
            fun x hx => List.mem_takeWhile_imp hx⟩
        · refine ⟨rest.dropWhile phoneChar, ?_⟩
          rw [← h1, List.cons_append, List.takeWhile_append_dropWhile]
      · rw [if_neg hlen] at h; cases h
    · rw [if_neg hd] at h; cases h
  · cases h

theorem tryPhoneAt_some {s m : List Char} (h : tryPhoneAt s = some m) :
    phoneShape m ∧ ∃ w, s = m ++ w := by
  unfold tryPhoneAt at h
  split at h
  · next rest =>
    cases hd : tryPhoneDigits rest with
    | some m' =>
      rw [hd] at h
      injection h with h1
      obtain ⟨⟨d, run, hm', hdig, hlen, hrun⟩, w, hw⟩ := tryPhoneDigits_some hd
      subst h1
      constructor
      · exact Or.inr ⟨d, run, by rw [hm'], hdig, hlen, hrun⟩
      · exact ⟨w, by rw [List.cons_append, ← hw]⟩
    | none => rw [hd] at h; cases h
  · next hne =>
    obtain ⟨⟨d, run, hm', hdig, hlen, hrun⟩, w, hw⟩ := tryPhoneDigits_some h
    exact ⟨Or.inl ⟨d, run, hm', hdig, hlen, hrun⟩, w, hw⟩

theorem tryPhoneDigits_complete {d : Char} {run v : List Char} (hd : d.isDigit = true)
    (hlen : 8 ≤ run.length) (hrun : ∀ c ∈ run, phoneChar c = true) :
    tryPhoneDigits (d :: (run ++ v)) ≠ none := by
  show (if d.isDigit = true then
      if 8 ≤ ((run ++ v).takeWhile phoneChar).length then
        some (d :: (run ++ v).takeWhile phoneChar)
      else none
    else none) ≠ none
  rw [if_pos hd, takeWhile_append_all hrun]
  rw [if_pos (by simp only [List.length_append]; omega)]
  exact fun hh => Option.noConfusion hh

theorem tryPhoneAt_complete {m v : List Char} (hm : phoneShape m) :
    tryPhoneAt (m ++ v) ≠ none := by
  rcases hm with ⟨d, run, rfl, hd, hlen, hrun⟩ | ⟨d, run, rfl, hd, hlen, hrun⟩
  · have hd' : d ≠ '+' := by
      intro he
      subst he
      simp at hd
    rw [List.cons_append]
    unfold tryPhoneAt
    split
    · next rest heq =>
      injection heq with h1 _
      exact absurd h1 hd'
    · exact tryPhoneDigits_complete hd hlen hrun
  · rw [List.cons_append]
    show (match tryPhoneDigits ((d :: run) ++ v) with
      | some mm => some ('+' :: mm)
      | none => none) ≠ none
    rw [List.cons_append]
    cases hcall : tryPhoneDigits (d :: (run ++ v)) with
    | some mm => simp
    | none => exact absurd hcall (tryPhoneDigits_complete hd hlen hrun)

set_option maxRecDepth 4000 in
/-- C5: the fallback extractor fixes `Name` to the degraded-extraction
sentinel; its `Email` is the leftmost email-pattern match of the
space-joined lines (and is absent exactly when no email-shaped substring
exists), its `Phone` likewise for the phone pattern; on
`["Contact: a@b.com 9876543210"]` it extracts `a@b.com` and `9876543210`. -/
theorem C5_fallback_extractor :
    (∀ lines, (manual_fallback lines).name = extractionFailedSentinel) ∧
    (∀ s m : PyStr, findEmail s = some m → emailShape m ∧
      (∃ u w, s = u ++ m ++ w) ∧
      ∃ n, tryEmailAt (s.drop n) = some m ∧ ∀ k < n, tryEmailAt (s.drop k) = none) ∧
    (∀ s : PyStr, findEmail s = none →
      ∀ u m w, s = u ++ m ++ w → ¬ emailShape m) ∧
    (∀ s m : PyStr, findPhone s = some m → phoneShape m ∧
      (∃ u w, s = u ++ m ++ w) ∧
      ∃ n, tryPhoneAt (s.drop n) = some m ∧ ∀ k < n, tryPhoneAt (s.drop k) = none) ∧
    (∀ s : PyStr, findPhone s = none →
      ∀ u m w, s = u ++ m ++ w → ¬ phoneShape m) ∧
    manual_fallback [mkPyStr "Contact: a@b.com 9876543210"] =
      { email := mkPyStr "a@b.com", phone := mkPyStr "9876543210",
        name := extractionFailedSentinel } := by
  refine ⟨fun _ => rfl, ?_, ?_, ?_, ?_, by decide⟩
  · intro s m h
    obtain ⟨n, h1, h2⟩ := scanFirst_eq_some h
    obtain ⟨hshape, w, hw⟩ := tryEmailAt_some h1
    refine ⟨hshape, ⟨s.take n, w, ?_⟩, n, h1, h2⟩
    conv_lhs => rw [← List.take_append_drop n s]
    rw [hw, List.append_assoc]
  · intro s h u m w heq hshape
    have hnone := scanFirst_eq_none (f := tryEmailAt) rfl h u.length
    rw [heq, List.append_assoc, List.drop_left] at hnone
    exact tryEmailAt_complete hshape hnone
  · intro s m h
    obtain ⟨n, h1, h2⟩ := scanFirst_eq_some h
    obtain ⟨hshape, w, hw⟩ := tryPhoneAt_some h1
    refine ⟨hshape, ⟨s.take n, w, ?_⟩, n, h1, h2⟩
    conv_lhs => rw [← List.take_append_drop n s]
    rw [hw, List.append_assoc]
  · intro s h u m w heq hshape
    have hnone := scanFirst_eq_none (f := tryPhoneAt) rfl h u.length
    rw [heq, List.append_assoc, List.drop_left] at hnone
    exact tryPhoneAt_complete hshape hnone

set_option maxRecDepth 4000 in
/-- Witness for C5's email conjunct on the documented example line. -/
theorem C5_witness :
    emailShape (mkPyStr "a@b.com") ∧
    (∃ u w, mkPyStr "Contact: a@b.com 9876543210" = u ++ mkPyStr "a@b.com" ++ w) ∧
    ∃ n, tryEmailAt ((mkPyStr "Contact: a@b.com 9876543210").drop n) =
        some (mkPyStr "a@b.com") ∧
      ∀ k < n, tryEmailAt ((mkPyStr "Contact: a@b.com 9876543210").drop k) = none :=
  C5_fallback_extractor.2.1 (mkPyStr "Contact: a@b.com 9876543210")
    (mkPyStr "a@b.com") (by decide)

/-! Schema-mapper lemmas: the brace-delimited JSON-substring extraction. -/

theorem head_dropWhile_false {p : Char → Bool} :
    ∀ {s : List Char} {c : Char} {cs : List Char},
      s.dropWhile p = c :: cs → p c = false := by
  intro s
  induction s with
  | nil => intro c cs h; simp at h
  | cons x xs ih =>
    intro c cs h
    rw [List.dropWhile_cons] at h
    by_cases hx : p x = true
    · rw [if_pos hx] at h
      exact ih h
    · rw [if_neg hx] at h
      injection h with h1 _
      subst h1
      cases hpx : p x with
      | false => rfl
      | true => exact absurd hpx hx

theorem braceSpan_eq_some_iff {s m : List Char} :
    braceSpan s = some m ↔
      ∃ u a v, s = u ++ '{' :: (a ++ '}' :: v) ∧
        (∀ c ∈ u, c ≠ '{') ∧ (∀ c ∈ v, c ≠ '}') ∧ m = '{' :: (a ++ ['}']) := by
  constructor
  · intro h
    unfold braceSpan at h
    split at h
    · cases h
    · next c rest heq =>
      by_cases ht : ((rest.reverse.dropWhile (fun c => c != '}')).reverse).isEmpty = true
      · rw [if_pos ht] at h
        cases h
      · rw [if_neg ht] at h
        injection h with h1
        have hc : c = '{' := by
          have hf := head_dropWhile_false heq
          simpa using hf
        subst hc
        cases hr : rest.reverse.dropWhile (fun c => c != '}') with
        | nil => rw [hr] at ht; simp at ht
        | cons d ds =>
          have hd : d = '}' := by
            have hf := head_dropWhile_false hr
            simpa using hf
          subst hd
          set u := s.takeWhile (fun c => c != '{') with hu_def
          set w := rest.reverse.takeWhile (fun c => c != '}') with hw_def
          have hs : s = u ++ '{' :: rest := by
            rw [hu_def]
            conv_lhs => rw [← List.takeWhile_append_dropWhile (fun c => c != '{') s]
            rw [heq]
          have hrev : rest.reverse = w ++ '}' :: ds := by
            rw [hw_def]
            conv_lhs =>
              rw [← List.takeWhile_append_dropWhile (fun c => c != '}') rest.reverse]
            rw [hr]
          have hrest : rest = ds.reverse ++ '}' :: w.reverse := by
            have h2 := congrArg List.reverse hrev
            rw [List.reverse_reverse, List.reverse_append, List.reverse_cons,
              List.append_assoc, List.singleton_append] at h2
            exact h2
          refine ⟨u, ds.reverse, w.reverse, ?_, ?_, ?_, ?_⟩
          · rw [hs, hrest]
          · intro c hc
            rw [hu_def] at hc
            have := List.mem_takeWhile_imp hc
            simpa using this
          · intro c hc
            rw [List.mem_reverse, hw_def] at hc
            have := List.mem_takeWhile_imp hc
            simpa using this
          · rw [← h1, hr, List.reverse_cons]
  · rintro ⟨u, a, v, rfl, hu, hv, rfl⟩
    have h1 : (u ++ '{' :: (a ++ '}' :: v)).dropWhile (fun c => c != '{') =
        '{' :: (a ++ '}' :: v) := by
      rw [dropWhile_append_all (fun c hc => by simpa using hu c hc),
        List.dropWhile_cons, if_neg (by decide)]
    have h2 : (a ++ '}' :: v).reverse.dropWhile (fun c => c != '}') =
        '}' :: a.reverse := by
      rw [List.reverse_append, List.reverse_cons, List.append_assoc,
        List.singleton_append,
        dropWhile_append_all (fun c hc => by
          rw [List.mem_reverse] at hc
          simpa using hv c hc),
        List.dropWhile_cons, if_neg (by decide)]
    unfold braceSpan
    rw [h1]
    show (if (((a ++ '}' :: v).reverse.dropWhile (fun c => c != '}')).reverse).isEmpty =
          true then none
        else some ('{' :: ((a ++ '}' :: v).reverse.dropWhile (fun c => c != '}')).reverse)) =
      some ('{' :: (a ++ ['}']))
    rw [h2, List.reverse_cons, List.reverse_reverse]
    rw [if_neg (by simp)]

theorem braceSpan_none_no_object :
    ∀ s : PyStr, braceSpan s = none →
      ∀ u a v, s ≠ u ++ '{' :: (a ++ '}' :: v) := by
  intro s
  induction s with
  | nil =>
    intro _ u a v heq
    cases u <;> simp at heq
  | cons c cs ih =>
    intro hnone u a v heq
    by_cases hc : c = '{'
    · subst hc
      unfold braceSpan at hnone
      rw [List.dropWhile_cons, if_neg (by simp)] at hnone
      have hnone' :
          (if ((cs.reverse.dropWhile (fun c => c != '}')).reverse).isEmpty = true then none
            else some ('{' :: (cs.reverse.dropWhile (fun c => c != '}')).reverse)) =
            (none : Option PyStr) := hnone
      by_cases ht : ((cs.reverse.dropWhile (fun c => c != '}')).reverse).isEmpty = true
      · have h0 : cs.reverse.dropWhile (fun c => c != '}') = [] := by
          have h1 := List.isEmpty_iff.mp ht
          have h2 := congrArg List.reverse h1
          simpa using h2
        have hall : ∀ x ∈ cs.reverse, (x != '}') = true :=
          List.dropWhile_eq_nil_iff.mp h0
        have hmem : ('}' : Char) ∈ cs := by
          have hmem0 : ('}' : Char) ∈ '{' :: cs := by
            rw [heq]
            cases u <;> simp
          rcases List.mem_cons.mp hmem0 with h0 | h0
          · exact absurd h0 (by decide)
          · exact h0
        have := hall '}' (List.mem_reverse.mpr hmem)
        simp at this
      · rw [if_neg ht] at hnone'
        cases hnone'
    · have hstep2 : braceSpan (c :: cs) = braceSpan cs := by
        unfold braceSpan
        rw [List.dropWhile_cons, if_pos (by simpa using hc)]
      cases u with
      | nil =>
        injection heq with h1 _
        exact hc h1
      | cons x xs =>
        injection heq with _ h2
        exact ih (hstep2 ▸ hnone) xs a v h2

/-- C6: the schema mapper parses exactly the substring from the first `{`
through the last `}` of the generative reply; when the capability raises,
when no brace-delimited object substring exists, or when parsing it fails,
it returns the fallback extractor's record instead of propagating. -/
theorem C6_schema_mapper_fallback :
    (∀ (J : Type) (parseJson : PyStr → Option J) (lines : List PyStr),
      clean_with_ai parseJson none lines = .inr (manual_fallback lines)) ∧
    (∀ (J : Type) (parseJson : PyStr → Option J) (lines : List PyStr) (content : PyStr),
      braceSpan content = none →
        clean_with_ai parseJson (some content) lines = .inr (manual_fallback lines)) ∧
    (∀ (J : Type) (parseJson : PyStr → Option J) (lines : List PyStr) (content m : PyStr),
      braceSpan content = some m → parseJson m = none →
        clean_with_ai parseJson (some content) lines = .inr (manual_fallback lines)) ∧
    (∀ (J : Type) (parseJson : PyStr → Option J) (lines : List PyStr) (content m : PyStr)
      (j : J), braceSpan content = some m → parseJson m = some j →
        clean_with_ai parseJson (some content) lines = .inl j) ∧
    (∀ s m : PyStr, braceSpan s = some m ↔
      ∃ u a v, s = u ++ '{' :: (a ++ '}' :: v) ∧
        (∀ c ∈ u, c ≠ '{') ∧ (∀ c ∈ v, c ≠ '}') ∧ m = '{' :: (a ++ ['}'])) ∧
    (∀ s : PyStr, braceSpan s = none →
      ∀ u a v, s ≠ u ++ '{' :: (a ++ '}' :: v)) := by
  refine ⟨fun _ _ _ => rfl, ?_, ?_, ?_, fun _ _ => braceSpan_eq_some_iff,
    braceSpan_none_no_object⟩
  · intro J parseJson lines content h
    simp only [clean_with_ai, h]
  · intro J parseJson lines content m h hp
    simp only [clean_with_ai, h, hp]
  · intro J parseJson lines content m j h hp
    simp only [clean_with_ai, h, hp]

/-- Witness for C6 on a concrete reply with prose around the JSON object
and a parser that fails on it. -/
theorem C6_witness :
    clean_with_ai (fun _ => (none : Option PyStr))
      (some (mkPyStr "reply: \x7bA\x7d end")) [mkPyStr "line"] =
      .inr (manual_fallback [mkPyStr "line"]) :=
  C6_schema_mapper_fallback.2.2.1 PyStr (fun _ => none) [mkPyStr "line"]
    (mkPyStr "reply: \x7bA\x7d end") (mkPyStr "\x7bA\x7d") (by decide) rfl

/-- C8 code behavior: for an existing file whose bytes cannot be decoded,
`cv2.imread` returns `None` and the unguarded denoising call raises, so
`extract_data` propagates an uncaught exception rather than returning a
structured error object (the claim's behavior holds only for missing
files, which do return the structured `File not found` object). -/
theorem C8_undecodable_image_raises :
    (∀ (Img J : Type) (preprocess : Img → Img × Img) (detect : Img → List DetBox)
      (recognize : ℤ × ℤ × ℤ × ℤ → Option PyStr) (response : Option PyStr)
      (parseJson : PyStr → Option J) (imgW imgH : ℤ),
      extract_data true none preprocess detect recognize response parseJson imgW imgH =
        .error (mkPyStr "cv2.error: (-215:Assertion failed) !_src.empty()") ∧
      ∀ out, extract_data true none preprocess detect recognize response parseJson
          imgW imgH ≠ .ok out) ∧
    (∀ (Img J : Type) (imread : Option Img) (preprocess : Img → Img × Img)
      (detect : Img → List DetBox) (recognize : ℤ × ℤ × ℤ × ℤ → Option PyStr)
      (response : Option PyStr) (parseJson : PyStr → Option J) (imgW imgH : ℤ),
      extract_data false imread preprocess detect recognize response parseJson
        imgW imgH = .ok (.errorObj (mkPyStr "File not found"))) := by
  constructor
  · intro Img J preprocess detect recognize response parseJson imgW imgH
    refine ⟨rfl, ?_⟩
    intro out h
    exact Except.noConfusion h
  · intro Img J imread preprocess detect recognize response parseJson imgW imgH
    rfl

end MosipOCR
